import Mathlib

/-!
Verification development for the podoc AST codec (`podoc/ast/_ast.py`),
its JSON persistence plugin, and the notebook converter helpers.

Python values flowing through `to_dict` / `from_dict` are modelled by the
`JsonV` type (strings, lists, dicts); AST nodes (`Block`, `Inline`
instances and raw Python strings) are modelled by `Obj`.  Python's
runtime `assert` failures are modelled by `Option`: a function returns
`none` exactly when the Python code raises.
-/

namespace Podoc

/-- A Python value as exchanged with `json`: a string, a list, or a
string-keyed dict (modelled as an association list in insertion order). -/
inductive JsonV where
  | jstr (s : String)
  | jarr (elems : List JsonV)
  | jobj (entries : List (String × JsonV))

/-- First binding of a key in a dict's entry list (Python dict lookup;
Python dicts never hold a key twice). -/
def lookupFirst : List (String × JsonV) → String → Option JsonV
  | [], _ => none
  | (k, v) :: rest, key => if k = key then some v else lookupFirst rest key

/-- `d[k]` / `d.get(k)` on a Python value: a dict lookup; any other
receiver raises (`TypeError`). -/
def pyGet (d : JsonV) (k : String) : Option JsonV :=
  match d with
  | .jobj kvs => lookupFirst kvs k
  | _ => none

/-- Python `len` on a string, list or dict. -/
def pyLen : JsonV → Nat
  | .jstr s => s.length
  | .jarr xs => xs.length
  | .jobj kvs => kvs.length

theorem lookupFirst_sizeOf {kvs : List (String × JsonV)} {k : String} {v : JsonV}
    (h : lookupFirst kvs k = some v) : sizeOf v < sizeOf kvs := by
  induction kvs with
  | nil => simp [lookupFirst] at h
  | cons hd tl ih =>
    obtain ⟨hk, hv⟩ := hd
    by_cases hkey : hk = k
    · simp [lookupFirst, hkey] at h
      subst h
      simp
      omega
    · simp [lookupFirst, hkey] at h
      have := ih h
      simp
      omega

theorem pyGet_sizeOf {d : JsonV} {k : String} {v : JsonV}
    (h : pyGet d k = some v) : sizeOf v < sizeOf d := by
  cases d with
  | jstr s => simp [pyGet] at h
  | jarr xs => simp [pyGet] at h
  | jobj kvs =>
    have : sizeOf v < sizeOf kvs := lookupFirst_sizeOf (by simpa [pyGet] using h)
    simp
    omega

/-- List of allowed Pandoc block names (`PANDOC_BLOCK_NAMES`). -/
def PANDOC_BLOCK_NAMES : List String :=
  ["Plain", "Para", "CodeBlock", "RawBlock", "BlockQuote", "OrderedList",
   "BulletList", "DefinitionList", "Header", "HorizontalRule", "Table", "Div"]

/-- List of allowed Pandoc inline names (`PANDOC_INLINE_NAMES`). -/
def PANDOC_INLINE_NAMES : List String :=
  ["Str", "Emph", "Strong", "Strikeout", "Code", "Space", "LineBreak",
   "Math", "Link", "Image"]

/-- A Python object handled by the AST layer: a raw string, a plain list,
a `Block` instance (`name`, `meta`, `children`) or an `Inline` instance
(`name`, `children`, the latter being either a list or a raw string,
hence a nested `Obj`).  `meta` is an arbitrary Python value, `JsonV`. -/
inductive Obj where
  | ostr (s : String)
  | olist (xs : List Obj)
  | oblock (name : String) (meta : JsonV) (children : List Obj)
  | oinline (name : String) (children : Obj)

/-- `isinstance(-, Block)`. -/
def Obj.isBlockI : Obj → Bool
  | .oblock _ _ _ => true
  | _ => false

/-- `isinstance(-, Inline)`. -/
def Obj.isInlineI : Obj → Bool
  | .oinline _ _ => true
  | _ => false

/-- `isinstance(-, string_types)`. -/
def Obj.isStrI : Obj → Bool
  | .ostr _ => true
  | _ => false

/-- `Block._check_children`: every child is a `Block` or an `Inline`. -/
def blockCheckChildren (children : List Obj) : Bool :=
  children.all (fun c => c.isBlockI || c.isInlineI)

/-- `Block.__init__(name=, meta=, children=)`: asserts the name is a
recognized block name and the children pass `Block._check_children`;
an assertion failure is `none` (`ValidationError`). -/
def blockNew (name : String) (meta : JsonV) (children : List Obj) : Option Obj :=
  if PANDOC_BLOCK_NAMES.contains name && blockCheckChildren children then
    some (.oblock name meta children)
  else none

/-- `Block.add_child`: asserts the child is a `Block` or an `Inline`,
then appends it. Calling it on a non-`Block` receiver also fails. -/
def blockAddChild (b child : Obj) : Option Obj :=
  match b with
  | .oblock name meta children =>
    if child.isBlockI || child.isInlineI then
      some (.oblock name meta (children ++ [child]))
    else none
  | _ => none

/-- `Inline._check_children`: the children value is a list of `Inline`
instances or a raw string. -/
def inlineCheckChildren : Obj → Bool
  | .ostr _ => true
  | .olist xs => xs.all Obj.isInlineI
  | _ => false

/-- `Inline.__init__(name=, children=)`: asserts the name is a recognized
inline name and the children pass `Inline._check_children`. -/
def inlineNew (name : String) (children : Obj) : Option Obj :=
  if PANDOC_INLINE_NAMES.contains name && inlineCheckChildren children then
    some (.oinline name children)
  else none

/-- `Inline.add_child`: asserts the receiver's children value is a list
and the child is an `Inline`, then appends (and re-checks). -/
def inlineAddChild (i child : Obj) : Option Obj :=
  match i with
  | .oinline name (.olist xs) =>
    if child.isInlineI then
      if (xs ++ [child]).all Obj.isInlineI then some (.oinline name (.olist (xs ++ [child])))
      else none
    else none
  | _ => none

/-- An `AST` instance: an ordered list of top-level objects (normally
`Block` instances, but `AST.from_dict` can also put `Inline`s there). -/
structure ASTObj where
  blocks : List Obj

/-- `AST.add_block`: asserts the argument is a `Block` instance. -/
def astAddBlock (a : ASTObj) (block : Obj) : Option ASTObj :=
  if block.isBlockI then some ⟨a.blocks ++ [block]⟩ else none

mutual

/-- `Block.to_dict` / `Inline.to_dict`, by duck typing on the receiver:
a `Block` re-checks its children then emits `{'t','m','c'}`; an `Inline`
re-checks then emits `{'t','c'}` with either a string payload or the
encoded child list.  A raw string or plain list has no `to_dict`
(`AttributeError`), hence `none`. -/
def objToDict : Obj → Option JsonV
  | .oblock name meta children =>
    if blockCheckChildren children then
      match objListToDict children with
      | some cs => some (.jobj [("t", .jstr name), ("m", meta), ("c", .jarr cs)])
      | none => none
    else none
  | .oinline name children =>
    if inlineCheckChildren children then
      match children with
      | .ostr s => some (.jobj [("t", .jstr name), ("c", .jstr s)])
      | .olist xs =>
        match objListToDict xs with
        | some cs => some (.jobj [("t", .jstr name), ("c", .jarr cs)])
        | none => none
      | _ => none
    else none
  | _ => none

/-- `[child.to_dict() for child in children]`. -/
def objListToDict : List Obj → Option (List JsonV)
  | [] => some []
  | c :: rest =>
    match objToDict c with
    | some d =>
      match objListToDict rest with
      | some ds => some (d :: ds)
      | none => none
    | none => none

end

/-- `AST.to_dict`: `[{'unMeta': {}}, [block.to_dict() ...]]`. -/
def astToDict (a : ASTObj) : Option JsonV :=
  match objListToDict a.blocks with
  | some bs => some (.jarr [.jobj [("unMeta", .jobj [])], .jarr bs])
  | none => none

mutual

/-- `Block.from_dict`: reads the `'t'` tag (a missing key or a dict-free
receiver raises), routes inline tags to `Inline.from_dict`, asserts the
tag is a recognized block name, reads `'m'` (default `{}`) and `'c'`
(required), decodes each element of `'c'` recursively (iterating a
non-empty string or non-empty dict feeds non-dict items into the
recursion, which raises), re-checks the children and calls the `Block`
constructor. -/
def blockFromDict (d : JsonV) : Option Obj :=
  match pyGet d "t" with
  | some (.jstr name) =>
    if PANDOC_INLINE_NAMES.contains name then inlineFromDict d
    else if PANDOC_BLOCK_NAMES.contains name then
      match hc : pyGet d "c" with
      | some (.jarr cs) =>
        match blockListFromDict cs with
        | some children =>
          if blockCheckChildren children then
            blockNew name ((pyGet d "m").getD (.jobj [])) children
          else none
        | none => none
      | some (.jstr s) =>
        if s.isEmpty then blockNew name ((pyGet d "m").getD (.jobj [])) [] else none
      | some (.jobj kvs) =>
        if kvs.isEmpty then blockNew name ((pyGet d "m").getD (.jobj [])) [] else none
      | none => none
    else none
  | some _ => none
  | none => none
termination_by (sizeOf d, 1)
decreasing_by
  all_goals simp_wf
  all_goals try (have hlt := pyGet_sizeOf hc; simp at hlt)
  all_goals
    first
    | exact Prod.Lex.right _ (by omega)
    | exact Prod.Lex.left _ _ (by first | omega | (simp; omega))

/-- `[Block.from_dict(x) for x in cs]`. -/
def blockListFromDict (ds : List JsonV) : Option (List Obj) :=
  match ds with
  | [] => some []
  | x :: rest =>
    match blockFromDict x with
    | some o =>
      match blockListFromDict rest with
      | some os => some (o :: os)
      | none => none
    | none => none
termination_by (sizeOf ds, 0)
decreasing_by
  all_goals simp_wf
  all_goals exact Prod.Lex.left _ _ (by first | omega | (simp; omega))

/-- `Inline.from_dict`: reads `'t'` and `'c'`, decodes a list payload
elementwise, checks the children shape (`_check_children`) and calls the
`Inline` constructor, which asserts the tag is a recognized inline name. -/
def inlineFromDict (d : JsonV) : Option Obj :=
  match pyGet d "t" with
  | some (.jstr name) =>
    match hc : pyGet d "c" with
    | some (.jarr cs) =>
      match inlineListFromDict cs with
      | some xs =>
        if inlineCheckChildren (.olist xs) then inlineNew name (.olist xs) else none
      | none => none
    | some (.jstr s) =>
      if inlineCheckChildren (.ostr s) then inlineNew name (.ostr s) else none
    | some (.jobj _) => none
    | none => none
  | some _ => none
  | none => none
termination_by (sizeOf d, 0)
decreasing_by
  all_goals simp_wf
  all_goals try (have hlt := pyGet_sizeOf hc; simp at hlt)
  all_goals exact Prod.Lex.left _ _ (by first | omega | (simp; omega))

/-- `[Inline.from_dict(x) for x in cs]`. -/
def inlineListFromDict (ds : List JsonV) : Option (List Obj) :=
  match ds with
  | [] => some []
  | x :: rest =>
    match inlineFromDict x with
    | some o =>
      match inlineListFromDict rest with
      | some os => some (o :: os)
      | none => none
    | none => none
termination_by (sizeOf ds, 1)
decreasing_by
  all_goals simp_wf
  all_goals exact Prod.Lex.left _ _ (by first | omega | (simp; omega))

end

/-- `AST.from_dict`: asserts `len(d) == 2`, then decodes every element
of `d[1]` with `Block.from_dict` and wraps the list in an `AST`.
Indexing `d[1]` into a dict raises (`KeyError`, integer key), into a
string yields a one-character string whose iteration feeds characters
into `Block.from_dict`, which raises. -/
def astFromDict (d : JsonV) : Option ASTObj :=
  if pyLen d = 2 then
    match d with
    | .jarr xs =>
      match xs.get? 1 with
      | some (.jarr blocks) =>
        match blockListFromDict blocks with
        | some os => some ⟨os⟩
        | none => none
      | some (.jstr s) => if s.isEmpty then some ⟨[]⟩ else none
      | some (.jobj kvs) => if kvs.isEmpty then some ⟨[]⟩ else none
      | none => none
    | .jstr _ => none
    | .jobj _ => none
  else none

mutual

/-- `_remove_json_meta`: drop every entry keyed `'m'` from every dict,
recursively, and recurse into lists; other values pass through. -/
def removeJsonMeta : JsonV → JsonV
  | .jstr s => .jstr s
  | .jarr xs => .jarr (removeJsonMetaList xs)
  | .jobj kvs => .jobj (removeJsonMetaEntries kvs)

/-- `_remove_json_meta` mapped over a list. -/
def removeJsonMetaList : List JsonV → List JsonV
  | [] => []
  | v :: rest => removeJsonMeta v :: removeJsonMetaList rest

/-- `{k: _remove_json_meta(v) for k, v in d.items() if k != 'm'}`. -/
def removeJsonMetaEntries : List (String × JsonV) → List (String × JsonV)
  | [] => []
  | (k, v) :: rest =>
    if k = "m" then removeJsonMetaEntries rest
    else (k, removeJsonMeta v) :: removeJsonMetaEntries rest

end

/-- `ae(a, b)`: for a list or dict `a`, asserts
`_remove_json_meta(a) == _remove_json_meta(b)`; otherwise asserts
`a == b`.  We state the asserted proposition. -/
def aeHolds (a b : JsonV) : Prop :=
  match a with
  | .jarr _ => removeJsonMeta a = removeJsonMeta b
  | .jobj _ => removeJsonMeta a = removeJsonMeta b
  | _ => a = b

mutual

/-- A node as the constructors can build it: a `Block` with a recognized
name whose children are `Block`/`Inline` nodes, or an `Inline` with a
recognized name whose children are a raw string or a list of `Inline`
nodes, recursively. -/
def validObj : Obj → Bool
  | .oblock name _ children =>
    PANDOC_BLOCK_NAMES.contains name && blockCheckChildren children && validObjList children
  | .oinline name children =>
    PANDOC_INLINE_NAMES.contains name && inlineCheckChildren children &&
      (match children with
       | .ostr _ => true
       | .olist xs => validObjList xs
       | _ => false)
  | _ => false

/-- `validObj` over a list of children. -/
def validObjList : List Obj → Bool
  | [] => true
  | c :: rest => validObj c && validObjList rest

end

/-- A `Document` as `add_block` can build it: every top-level element is
a constructible `Block`. -/
def validAST (a : ASTObj) : Bool :=
  a.blocks.all Obj.isBlockI && validObjList a.blocks

/-- `n` spaces. -/
def spacesN (n : Nat) : String := String.mk (List.replicate n ' ')

/-- JSON string escaping for one character (the characters that occur in
this development; `json.dump` additionally escapes other control and
non-ASCII characters). -/
def escapeChar (c : Char) : String :=
  if c = '"' then "\\\""
  else if c = '\\' then "\\\\"
  else if c = '\n' then "\\n"
  else if c = '\t' then "\\t"
  else if c = '\r' then "\\r"
  else String.singleton c

/-- JSON string escaping. -/
def escapeString (s : String) : String := String.join (s.data.map escapeChar)

/-- The keys of a dict in sorted order, as `sort_keys=True` emits them.
Python dicts never hold a key twice, so deduplication is the identity on
every reachable input. -/
def sortedKeysOf (kvs : List (String × JsonV)) : List String :=
  List.insertionSort (· ≤ ·) (kvs.map Prod.fst).dedup

mutual

/-- `json.dump(v, f, sort_keys=True, indent=2)`: the exact character
stream written for a value at nesting level `lvl`. -/
def dumpV : JsonV → Nat → String
  | .jstr s, _ => "\"" ++ escapeString s ++ "\""
  | .jarr [], _ => "[]"
  | .jarr (x :: xs), lvl =>
    "[\n" ++ dumpArrItems (x :: xs) (lvl + 1) ++ "\n" ++ spacesN (2 * lvl) ++ "]"
  | .jobj [], _ => "\x7b\x7d"
  | .jobj (e :: es), lvl =>
    "\x7b\n" ++ dumpObjEntries (sortedKeysOf (e :: es)) (e :: es) (lvl + 1) ++ "\n" ++
      spacesN (2 * lvl) ++ "\x7d"
termination_by v _ => (sizeOf v, 0)
decreasing_by
  all_goals simp_wf
  all_goals try (have hlt := lookupFirst_sizeOf hv)
  all_goals
    first
    | exact Prod.Lex.right _ (by omega)
    | exact Prod.Lex.left _ _ (by first | omega | (simp; omega))

/-- Array items, one per line, comma-separated. -/
def dumpArrItems : List JsonV → Nat → String
  | [], _ => ""
  | x :: rest, lvl =>
    spacesN (2 * lvl) ++ dumpV x lvl ++ (if rest.isEmpty then "" else ",\n") ++
      dumpArrItems rest lvl
termination_by xs _ => (sizeOf xs, 0)
decreasing_by
  all_goals simp_wf
  all_goals try (have hlt := lookupFirst_sizeOf hv)
  all_goals
    first
    | exact Prod.Lex.right _ (by omega)
    | exact Prod.Lex.left _ _ (by first | omega | (simp; omega))

/-- Dict entries in the given (sorted) key order, one per line,
comma-separated; each value is looked up in the original dict. -/
def dumpObjEntries (ks : List String) (kvs : List (String × JsonV)) (lvl : Nat) : String :=
  match ks with
  | [] => ""
  | k :: rest =>
    spacesN (2 * lvl) ++ "\"" ++ escapeString k ++ "\": " ++
      (match hv : lookupFirst kvs k with
       | some v => dumpV v lvl
       | none => "null") ++
      (if rest.isEmpty then "" else ",\n") ++ dumpObjEntries rest kvs lvl
termination_by (sizeOf kvs, ks.length)
decreasing_by
  all_goals simp_wf
  all_goals try (have hlt := lookupFirst_sizeOf hv)
  all_goals
    first
    | exact Prod.Lex.right _ (by omega)
    | exact Prod.Lex.left _ _ (by first | omega | (simp; omega))

end

/-- `ASTPlugin.save`: the full byte content written to the file —
`json.dump(ast.to_dict(), f, sort_keys=True, indent=2)` followed by
`f.write('\n')`. -/
def astSaveContents (a : ASTObj) : Option String :=
  match astToDict a with
  | some j => some (dumpV j 0 ++ "\n")
  | none => none

/-- Modelled from the spec: the extension derived from a mime type
(`image/png` → `png`); the implementing module `podoc/notebook/_notebook.py`
is not among the provided sources. -/
def extFromMime (mime : String) : String :=
  if mime.data.contains '/' then String.mk ((mime.data.dropWhile (fun c => c ≠ '/')).drop 1)
  else mime

/-- Modelled from the spec: `output_filename` — the resource filename
`output_<cell_index>_<output_index>.<ext>` synthesized for a notebook
output, with zero-based indices and the extension derived from the mime
type; `podoc/notebook/_notebook.py` is not among the provided sources. -/
def outputFilename (mime : String) (cellIndex outputIndex : Nat) : String :=
  "output_" ++ toString cellIndex ++ "_" ++ toString outputIndex ++ "." ++ extFromMime mime

/-- A node of the notebook writer's AST (`ASTNode`-style): a name, a
metadata mapping and child nodes.  Only the grouping structure matters
for the cell-wrapping transform, which never inspects below the top
level. -/
inductive NBNode where
  | mk (name : String) (meta : List (String × String)) (children : List NBNode)

/-- The node's name. -/
def NBNode.name : NBNode → String
  | .mk n _ _ => n

/-- The synthetic code-cell container wrapping a grouped run. -/
def mkCodeCell (children : List NBNode) : NBNode :=
  .mk "CodeCell" [] children

/-- Modelled from the spec: a Block that represents a code-cell output —
an Image node whose URL metadata matches the resource-filename pattern
`output_...`; `podoc/notebook/_notebook.py` is not among the provided
sources. -/
def isOutputRepr (b : NBNode) : Bool :=
  match b with
  | .mk n meta _ =>
    n == "Image" &&
      (match meta.lookup "url" with
       | some url => url.startsWith "output_"
       | none => false)

/-- Modelled from the spec: one step of the cell-wrapping scan.  `open?`
holds the children of the currently-open code-cell group, if any: a
CodeBlock always closes the open group and starts a new one; an
output-representing Block is appended to the open group; any other Block
closes the open group and stays ungrouped.  `podoc/notebook/_notebook.py`
is not among the provided sources. -/
def wrapScan : Option (List NBNode) → List NBNode → List NBNode
  | none, [] => []
  | some g, [] => [mkCodeCell g]
  | acc, b :: rest =>
    if b.name == "CodeBlock" then
      (match acc with
       | some g => [mkCodeCell g]
       | none => []) ++ wrapScan (some [b]) rest
    else
      match acc with
      | some g =>
        if isOutputRepr b then wrapScan (some (g ++ [b])) rest
        else mkCodeCell g :: b :: wrapScan none rest
      | none => b :: wrapScan none rest

/-- Modelled from the spec: `wrap_code_cells` — group each maximal run
`[CodeBlock, outputs...]` of the top-level Block sequence into one
synthetic CodeCell node, leaving other Blocks untouched and in order. -/
def wrapCodeCells (blocks : List NBNode) : List NBNode :=
  wrapScan none blocks

mutual

/-- Python `==` on json-style values: strings compare by value, lists
pointwise, dicts by key set and (recursively) equal values per key.
Reachable dicts never hold a key twice, which the relation records. -/
def jsonEqP : JsonV → JsonV → Prop
  | .jstr s1, .jstr s2 => s1 = s2
  | .jarr xs, .jarr ys => jsonEqListP xs ys
  | .jobj kvs1, .jobj kvs2 =>
    (kvs1.map Prod.fst).Nodup ∧ (kvs2.map Prod.fst).Nodup ∧
    (∀ k, (lookupFirst kvs1 k).isSome ↔ (lookupFirst kvs2 k).isSome) ∧
    (∀ k v1 v2, lookupFirst kvs1 k = some v1 → lookupFirst kvs2 k = some v2 → jsonEqP v1 v2)
  | _, _ => False
termination_by v _ => (sizeOf v, 0)
decreasing_by
  all_goals simp_wf
  all_goals try (have hlt := lookupFirst_sizeOf (by assumption : lookupFirst kvs1 k = some v1))
  all_goals
    first
    | exact Prod.Lex.right _ (by omega)
    | exact Prod.Lex.left _ _ (by first | omega | (simp; omega))

/-- Python `==` on lists of json-style values, pointwise. -/
def jsonEqListP : List JsonV → List JsonV → Prop
  | [], [] => True
  | x :: xs, y :: ys => jsonEqP x y ∧ jsonEqListP xs ys
  | _, _ => False
termination_by xs _ => (sizeOf xs, 1)
decreasing_by
  all_goals simp_wf
  all_goals
    first
    | exact Prod.Lex.right _ (by omega)
    | exact Prod.Lex.left _ _ (by first | omega | (simp; omega))

end

/-- The block and inline name enumerations are disjoint, so `from_dict`
routing by tag is unambiguous. -/
theorem names_disjoint : ∀ n, n ∈ PANDOC_BLOCK_NAMES → ¬ n ∈ PANDOC_INLINE_NAMES := by
  decide

/-- C4: constructing a `Block` whose kind is outside the block
enumeration, or an `Inline` whose kind is outside the inline
enumeration, fails with a `ValidationError` (modelled as `none`) at
construction time. -/
theorem c4_unknown_kind_rejected :
    (∀ name meta children, ¬ name ∈ PANDOC_BLOCK_NAMES →
      blockNew name meta children = none) ∧
    (∀ name children, ¬ name ∈ PANDOC_INLINE_NAMES →
      inlineNew name children = none) := by
  constructor
  · intro name meta children h
    simp [blockNew, h]
  · intro name children h
    simp [inlineNew, h]

/-- C4 witness: a concrete unknown kind is rejected by both
constructors. -/
theorem c4_unknown_kind_rejected_witness :
    blockNew "root" (.jobj []) [] = none ∧ inlineNew "root" (.ostr "") = none :=
  ⟨c4_unknown_kind_rejected.1 "root" (.jobj []) [] (by decide),
   c4_unknown_kind_rejected.2 "root" (.ostr "") (by decide)⟩

/-- C5: decoding a value whose outer structure does not have exactly two
elements fails (`AST.from_dict` asserts `len(d) == 2` before anything
else), returning no partial document. -/
theorem c5_outer_shape_decode_error :
    ∀ d : JsonV, pyLen d ≠ 2 → astFromDict d = none := by
  intro d h
  simp [astFromDict, h]

/-- C5 witness: the empty array fails to decode. -/
theorem c5_outer_shape_decode_error_witness : astFromDict (.jarr []) = none :=
  c5_outer_shape_decode_error (.jarr []) (by simp [pyLen])

/-- C2: decoding the pandoc form of a document containing an `Unknown`
node with a `Para` child does not splice the child into the parent — it
fails outright (`Block.from_dict` asserts the tag is a recognized block
name), so the whole decode call errors instead of recovering. -/
theorem c2_unknown_tag_decode_fails :
    astFromDict
      (.jarr [.jobj [("unMeta", .jobj [])],
              .jarr [.jobj [("t", .jstr "Unknown"), ("m", .jobj []),
                            ("c", .jarr [.jobj [("t", .jstr "Para"), ("m", .jobj []),
                                                ("c", .jarr [])]])]]]) = none := by
  simp [astFromDict, pyLen, blockListFromDict, blockFromDict, pyGet,
        lookupFirst, PANDOC_INLINE_NAMES, PANDOC_BLOCK_NAMES]

/-- C10: `AST.from_dict` accepts a well-formed two-element input whose
block array holds an object tagged `Str` (an inline tag) and returns a
document whose top-level list holds an `Inline` node — a document
`AST.add_block` itself can never build, since it only accepts `Block`
instances. -/
theorem c10_decode_skips_document_invariant :
    astFromDict (.jarr [.jobj [("unMeta", .jobj [])],
                        .jarr [.jobj [("t", .jstr "Str"), ("c", .jstr "hello")]]])
      = some ⟨[.oinline "Str" (.ostr "hello")]⟩ ∧
    (Obj.oinline "Str" (.ostr "hello")).isBlockI = false ∧
    (∀ a : ASTObj, astAddBlock a (.oinline "Str" (.ostr "hello")) = none) := by
  refine ⟨?_, rfl, ?_⟩
  · simp [astFromDict, pyLen, blockListFromDict, blockFromDict, inlineFromDict,
          inlineListFromDict, pyGet, lookupFirst, PANDOC_INLINE_NAMES,
          PANDOC_BLOCK_NAMES, inlineNew, inlineCheckChildren]
  · intro a
    simp [astAddBlock, Obj.isBlockI]

/-- C8: the synthesized resource filename is the deterministic function
`output_<cell_index>_<output_index>.<ext>` of the indices and the
mime-derived extension; in particular `image/png` at cell 4, output 1
gives exactly `output_4_1.png`. -/
theorem c8_output_filename :
    outputFilename "image/png" 4 1 = "output_4_1.png" ∧
    outputFilename "image/png" 0 0 = "output_0_0.png" ∧
    (∀ mime i j, outputFilename mime i j =
      "output_" ++ toString i ++ "_" ++ toString j ++ "." ++ extFromMime mime) := by
  refine ⟨by decide, by decide, fun _ _ _ => rfl⟩

/-- C9: the cell-wrapping transform turns two adjacent CodeBlocks into
two separate one-child code-cell groups, and a single CodeBlock with no
following outputs into one one-child group. -/
theorem c9_wrap_code_cells (b0 b1 : NBNode)
    (h0 : b0.name = "CodeBlock") (h1 : b1.name = "CodeBlock") :
    wrapCodeCells [b0, b1] = [mkCodeCell [b0], mkCodeCell [b1]] ∧
    wrapCodeCells [b0] = [mkCodeCell [b0]] := by
  constructor <;> simp [wrapCodeCells, wrapScan, h0, h1]

/-- C9 witness: two concrete python CodeBlocks. -/
theorem c9_wrap_code_cells_witness :
    wrapCodeCells [.mk "CodeBlock" [("lang", "python")] [], .mk "CodeBlock" [("lang", "python")] []]
        = [mkCodeCell [.mk "CodeBlock" [("lang", "python")] []],
           mkCodeCell [.mk "CodeBlock" [("lang", "python")] []]] ∧
    wrapCodeCells [.mk "CodeBlock" [("lang", "python")] []]
        = [mkCodeCell [.mk "CodeBlock" [("lang", "python")] []]] :=
  c9_wrap_code_cells (.mk "CodeBlock" [("lang", "python")] [])
    (.mk "CodeBlock" [("lang", "python")] []) rfl rfl

/-- C3: every constructible node satisfies the shape invariant — a
successful `Block` construction or `add_child` admits only `Block` or
`Inline` children (never a raw string), and a successful `Inline`
construction or `add_child` admits only a raw-string payload or a list
of `Inline` children (never a `Block`); every violating child is
rejected with a `ValidationError` (`none`). -/
theorem c3_shape_invariant :
    (∀ name meta children b, blockNew name meta children = some b →
      ∀ c ∈ children, c.isBlockI = true ∨ c.isInlineI = true) ∧
    (∀ name meta children c, c ∈ children → c.isStrI = true →
      blockNew name meta children = none) ∧
    (∀ b child b2, blockAddChild b child = some b2 →
      child.isBlockI = true ∨ child.isInlineI = true) ∧
    (∀ b child, child.isStrI = true → blockAddChild b child = none) ∧
    (∀ name ch i, inlineNew name ch = some i →
      (∃ s, ch = .ostr s) ∨ (∃ xs, ch = .olist xs ∧ ∀ c ∈ xs, c.isInlineI = true)) ∧
    (∀ name xs c, c ∈ xs → c.isBlockI = true → inlineNew name (.olist xs) = none) ∧
    (∀ i child i2, inlineAddChild i child = some i2 → child.isInlineI = true) ∧
    (∀ i child, child.isBlockI = true → inlineAddChild i child = none) := by
  refine ⟨?_, ?_, ?_, ?_, ?_, ?_, ?_, ?_⟩
  · intro name meta children b h c hc
    simp [blockNew] at h
    obtain ⟨⟨_, hchk⟩, _⟩ := h
    have hall : ∀ x ∈ children, (x.isBlockI || x.isInlineI) = true :=
      List.all_eq_true.mp hchk
    exact (Bool.or_eq_true _ _).mp (hall c hc)
  · intro name meta children c hc hstr
    have hfalse : blockCheckChildren children = false := by
      rcases c with s | xs | ⟨n, m, cs⟩ | ⟨n, ch⟩ <;> simp [Obj.isStrI] at hstr
      apply Bool.eq_false_iff.mpr
      intro hall
      have hall2 : ∀ x ∈ children, (x.isBlockI || x.isInlineI) = true :=
        List.all_eq_true.mp hall
      have := hall2 _ hc
      simp [Obj.isBlockI, Obj.isInlineI] at this
    simp [blockNew, hfalse]
  · intro b child b2 h
    rcases b with s | xs | ⟨n, m, cs⟩ | ⟨n, ch⟩ <;> simp [blockAddChild] at h
    by_cases hb : child.isBlockI = true
    · exact Or.inl hb
    · by_cases hi : child.isInlineI = true
      · exact Or.inr hi
      · rw [Bool.not_eq_true] at hb hi
        simp [hb, hi] at h
  · intro b child hstr
    rcases child with s | xs | ⟨n, m, cs⟩ | ⟨n, ch⟩ <;> simp [Obj.isStrI] at hstr
    rcases b with s2 | xs2 | ⟨n2, m2, cs2⟩ | ⟨n2, ch2⟩ <;>
      simp [blockAddChild, Obj.isBlockI, Obj.isInlineI]
  · intro name ch i h
    simp [inlineNew] at h
    obtain ⟨⟨_, hchk⟩, _⟩ := h
    rcases ch with s | xs | ⟨n, m, cs⟩ | ⟨n, c⟩
    · exact Or.inl ⟨s, rfl⟩
    · refine Or.inr ⟨xs, rfl, ?_⟩
      intro c hc
      have hall : ∀ x ∈ xs, x.isInlineI = true := List.all_eq_true.mp hchk
      exact hall c hc
    · simp [inlineCheckChildren] at hchk
    · simp [inlineCheckChildren] at hchk
  · intro name xs c hc hblk
    have hfalse : inlineCheckChildren (.olist xs) = false := by
      rcases c with s | ys | ⟨n, m, cs⟩ | ⟨n, ch⟩ <;> simp [Obj.isBlockI] at hblk
      apply Bool.eq_false_iff.mpr
      intro hall
      have hall2 : ∀ x ∈ xs, x.isInlineI = true := List.all_eq_true.mp hall
      have := hall2 _ hc
      simp [Obj.isInlineI] at this
    simp [inlineNew, hfalse]
  · intro i child i2 h
    rcases i with s | xs | ⟨n, m, cs⟩ | ⟨n, ch⟩
    · simp [inlineAddChild] at h
    · simp [inlineAddChild] at h
    · simp [inlineAddChild] at h
    · rcases ch with s2 | xs2 | ⟨n2, m2, cs2⟩ | ⟨n2, ch2⟩ <;> simp [inlineAddChild] at h
      by_cases hi : child.isInlineI = true
      · exact hi
      · rw [Bool.not_eq_true] at hi
        simp [hi] at h
  · intro i child hblk
    rcases child with s | xs | ⟨n, m, cs⟩ | ⟨n, ch⟩ <;> simp [Obj.isBlockI] at hblk
    rcases i with s2 | xs2 | ⟨n2, m2, cs2⟩ | ⟨n2, ch2⟩
    · simp [inlineAddChild]
    · simp [inlineAddChild]
    · simp [inlineAddChild]
    · rcases ch2 with s3 | xs3 | ⟨n3, m3, cs3⟩ | ⟨n3, ch3⟩ <;>
        simp [inlineAddChild, Obj.isInlineI]

/-- C3 witness: a concrete raw-string child is rejected by the `Block`
constructor and `add_child`, a concrete `Block` child is rejected by the
`Inline` constructor and `add_child`, and concrete valid constructions
exhibit the invariant. -/
theorem c3_shape_invariant_witness :
    blockNew "Para" (.jobj []) [.ostr "raw"] = none ∧
    blockAddChild (.oblock "Para" (.jobj []) []) (.ostr "raw") = none ∧
    inlineNew "Emph" (.olist [.oblock "Para" (.jobj []) []]) = none ∧
    inlineAddChild (.oinline "Emph" (.olist [])) (.oblock "Para" (.jobj []) []) = none ∧
    (∀ c ∈ [Obj.oinline "Str" (.ostr "x")], c.isBlockI = true ∨ c.isInlineI = true) :=
  ⟨c3_shape_invariant.2.1 "Para" (.jobj []) [.ostr "raw"] (.ostr "raw") (by simp) rfl,
   c3_shape_invariant.2.2.2.1 (.oblock "Para" (.jobj []) []) (.ostr "raw") rfl,
   c3_shape_invariant.2.2.2.2.2.1 "Emph" [.oblock "Para" (.jobj []) []]
     (.oblock "Para" (.jobj []) []) (by simp) rfl,
   c3_shape_invariant.2.2.2.2.2.2.2 (.oinline "Emph" (.olist []))
     (.oblock "Para" (.jobj []) []) rfl,
   c3_shape_invariant.1 "Para" (.jobj []) [.oinline "Str" (.ostr "x")]
     (.oblock "Para" (.jobj []) [.oinline "Str" (.ostr "x")])
     (by simp [blockNew, blockCheckChildren, Obj.isInlineI, PANDOC_BLOCK_NAMES])⟩

/-- A constructible inline node carries a recognized inline name. -/
theorem validObj_oinline_name {name : String} {ch : Obj}
    (h : validObj (.oinline name ch) = true) : name ∈ PANDOC_INLINE_NAMES := by
  cases ch with
  | ostr s => simp [validObj] at h; exact h.1
  | olist xs => simp [validObj] at h; exact h.1.1
  | oblock n m cs => simp [validObj] at h
  | oinline n c => simp [validObj] at h

mutual

/-- Encoding a constructible node and decoding through `Block.from_dict`
restores it exactly. -/
theorem blockRoundTrip : ∀ o : Obj, validObj o = true →
    ∃ j, objToDict o = some j ∧ blockFromDict j = some o
  | .ostr s, h => by simp [validObj] at h
  | .olist xs, h => by simp [validObj] at h
  | .oblock name meta children, h => by
    simp [validObj] at h
    obtain ⟨⟨hname, hchk⟩, hvalid⟩ := h
    obtain ⟨js, hjs, hback⟩ := blockListRoundTrip children hvalid
    have hnotinl : ¬ name ∈ PANDOC_INLINE_NAMES := names_disjoint name hname
    refine ⟨.jobj [("t", .jstr name), ("m", meta), ("c", .jarr js)], ?_, ?_⟩
    · simp [objToDict, hchk, hjs]
    · simp [blockFromDict, pyGet, lookupFirst, hnotinl, hname, hback, hchk, blockNew]
  | .oinline name ch, h => by
    have hname : name ∈ PANDOC_INLINE_NAMES := validObj_oinline_name h
    obtain ⟨payload, hj, hback⟩ := inlineRoundTrip name ch h
    refine ⟨.jobj [("t", .jstr name), ("c", payload)], hj, ?_⟩
    simp [blockFromDict, pyGet, lookupFirst, hname]
    exact hback
termination_by o _ => sizeOf o
decreasing_by
  all_goals simp_wf
  all_goals try simp
  all_goals omega

/-- Encoding a constructible inline node and decoding through
`Inline.from_dict` restores it exactly; the payload under `'c'` is a
string or an array according to the children shape. -/
theorem inlineRoundTrip : ∀ name ch, validObj (.oinline name ch) = true →
    ∃ payload, objToDict (.oinline name ch) = some (.jobj [("t", .jstr name), ("c", payload)]) ∧
      inlineFromDict (.jobj [("t", .jstr name), ("c", payload)]) = some (.oinline name ch)
  | name, .ostr s, h => by
    simp [validObj] at h
    obtain ⟨hname, -⟩ := h
    refine ⟨.jstr s, ?_, ?_⟩
    · simp [objToDict, inlineCheckChildren]
    · simp [inlineFromDict, pyGet, lookupFirst, inlineCheckChildren, inlineNew, hname]
  | name, .olist xs, h => by
    simp [validObj, inlineCheckChildren] at h
    obtain ⟨⟨hname, hall⟩, hvalid⟩ := h
    have hallb : xs.all Obj.isInlineI = true := List.all_eq_true.mpr hall
    obtain ⟨js, hjs, hback⟩ := inlineListRoundTrip xs hvalid hallb
    refine ⟨.jarr js, ?_, ?_⟩
    · simp [objToDict, inlineCheckChildren, hjs]
      try exact hall
    · simp [inlineFromDict, pyGet, lookupFirst, hback, inlineCheckChildren,
            inlineNew, hname]
      try exact hall
  | name, .oblock n2 m2 cs2, h => by simp [validObj, inlineCheckChildren] at h
  | name, .oinline n2 ch2, h => by simp [validObj, inlineCheckChildren] at h
termination_by name ch _ => sizeOf ch
decreasing_by
  all_goals simp_wf
  all_goals try simp
  all_goals omega

/-- Round trip for a list of children decoded with `Block.from_dict`. -/
theorem blockListRoundTrip : ∀ os : List Obj, validObjList os = true →
    ∃ js, objListToDict os = some js ∧ blockListFromDict js = some os
  | [], _ => ⟨[], by simp [objListToDict], by simp [blockListFromDict]⟩
  | o :: rest, h => by
    simp [validObjList] at h
    obtain ⟨h1, h2⟩ := h
    obtain ⟨j, hj, hbk⟩ := blockRoundTrip o h1
    obtain ⟨js, hjs, hbks⟩ := blockListRoundTrip rest h2
    exact ⟨j :: js, by simp [objListToDict, hj, hjs],
           by simp [blockListFromDict, hbk, hbks]⟩
termination_by os _ => sizeOf os
decreasing_by
  all_goals simp_wf
  all_goals try simp
  all_goals omega

/-- Round trip for a list of inline children decoded with
`Inline.from_dict`. -/
theorem inlineListRoundTrip : ∀ os : List Obj, validObjList os = true →
    os.all Obj.isInlineI = true →
    ∃ js, objListToDict os = some js ∧ inlineListFromDict js = some os
  | [], _, _ => ⟨[], by simp [objListToDict], by simp [inlineListFromDict]⟩
  | .ostr s :: rest, _, hall => by simp [Obj.isInlineI] at hall
  | .olist ys :: rest, _, hall => by simp [Obj.isInlineI] at hall
  | .oblock n2 m2 cs2 :: rest, _, hall => by simp [Obj.isInlineI] at hall
  | .oinline n2 ch2 :: rest, h, hall => by
    simp [validObjList] at h
    obtain ⟨h1, h2⟩ := h
    simp [Obj.isInlineI] at hall
    obtain ⟨payload, hj, hbk⟩ := inlineRoundTrip n2 ch2 h1
    obtain ⟨js, hjs, hbks⟩ := inlineListRoundTrip rest h2 (by simpa using hall)
    exact ⟨.jobj [("t", .jstr n2), ("c", payload)] :: js,
           by simp [objListToDict, hj, hjs],
           by simp [inlineListFromDict, hbk, hbks]⟩
termination_by os _ _ => sizeOf os
decreasing_by
  all_goals simp_wf
  all_goals try simp
  all_goals omega

end

/-- C1: for every document built only from recognized kinds (and hence
constructible), `AST.from_dict (AST.to_dict d)` succeeds and returns a
document equal to `d` — same ordered block sequence, recursively same
kinds, children and (for blocks) metadata; the equality is exact, so it
holds a fortiori when the internal-only `'m'` bookkeeping key is
ignored. -/
theorem c1_codec_round_trip : ∀ a : ASTObj, validAST a = true →
    ∃ d, astToDict a = some d ∧ astFromDict d = some a := by
  intro a h
  obtain ⟨blocks⟩ := a
  simp [validAST] at h
  obtain ⟨-, hv⟩ := h
  obtain ⟨js, hjs, hbk⟩ := blockListRoundTrip blocks hv
  refine ⟨.jarr [.jobj [("unMeta", .jobj [])], .jarr js], ?_, ?_⟩
  · simp [astToDict, hjs]
  · simp [astFromDict, pyLen, hbk]

/-- C1 witness: a concrete two-level document round-trips. -/
theorem c1_codec_round_trip_witness :
    ∃ d, astToDict ⟨[.oblock "Para" (.jobj [("k", .jstr "v")])
                      [.oinline "Str" (.ostr "hi"), .oinline "Emph" (.olist [])]]⟩ = some d ∧
      astFromDict d = some ⟨[.oblock "Para" (.jobj [("k", .jstr "v")])
                      [.oinline "Str" (.ostr "hi"), .oinline "Emph" (.olist [])]]⟩ :=
  c1_codec_round_trip _
    (by simp [validAST, validObjList, validObj, blockCheckChildren, inlineCheckChildren,
              Obj.isBlockI, Obj.isInlineI, PANDOC_BLOCK_NAMES, PANDOC_INLINE_NAMES])

mutual

/-- Erase every block's metadata in a node tree (`meta` becomes `{}`),
keeping kinds and children; the part of a node that `ae` actually
compares. -/
def eraseMeta : Obj → Obj
  | .ostr s => .ostr s
  | .olist xs => .olist (eraseMetaList xs)
  | .oblock n _ cs => .oblock n (.jobj []) (eraseMetaList cs)
  | .oinline n ch => .oinline n (eraseMeta ch)

/-- `eraseMeta` over a list. -/
def eraseMetaList : List Obj → List Obj
  | [] => []
  | o :: rest => eraseMeta o :: eraseMetaList rest

end

mutual

/-- The metadata-free encoding of a node: what `_remove_json_meta`
leaves of `to_dict`'s output (`{'t': ..., 'c': ...}` at every level).
The final two fallback patterns are unreachable for constructible
nodes. -/
def strippedToDict : Obj → JsonV
  | .ostr s => .jstr s
  | .olist xs => .jarr (strippedListToDict xs)
  | .oblock n _ cs => .jobj [("t", .jstr n), ("c", .jarr (strippedListToDict cs))]
  | .oinline n (.ostr s) => .jobj [("t", .jstr n), ("c", .jstr s)]
  | .oinline n (.olist xs) => .jobj [("t", .jstr n), ("c", .jarr (strippedListToDict xs))]
  | .oinline n _ => .jobj [("t", .jstr n), ("c", .jstr "")]

/-- `strippedToDict` over a list. -/
def strippedListToDict : List Obj → List JsonV
  | [] => []
  | o :: rest => strippedToDict o :: strippedListToDict rest

end

mutual

/-- Factorization: on a constructible node, `_remove_json_meta` after
`to_dict` yields exactly the metadata-free encoding. -/
theorem stripFact : ∀ o j, validObj o = true → objToDict o = some j →
    removeJsonMeta j = strippedToDict o
  | .ostr s, j, hv, hj => by simp [validObj] at hv
  | .olist xs, j, hv, hj => by simp [validObj] at hv
  | .oblock n m cs, j, hv, hj => by
    simp [validObj] at hv
    obtain ⟨⟨hn, hchk⟩, hvl⟩ := hv
    simp [objToDict, hchk] at hj
    cases hds : objListToDict cs with
    | none => simp [hds] at hj
    | some ds =>
      simp [hds] at hj
      subst hj
      have hrec := stripFactList cs ds hvl hds
      simp [removeJsonMeta, removeJsonMetaEntries, removeJsonMetaList,
            strippedToDict, hrec]
  | .oinline n (.ostr s), j, hv, hj => by
    simp [objToDict, inlineCheckChildren] at hj
    subst hj
    simp [removeJsonMeta, removeJsonMetaEntries, strippedToDict]
  | .oinline n (.olist xs), j, hv, hj => by
    simp [validObj, inlineCheckChildren] at hv
    obtain ⟨⟨hn, hall⟩, hvl⟩ := hv
    simp [objToDict, inlineCheckChildren, List.all_eq_true.mpr hall] at hj
    cases hds : objListToDict xs with
    | none => simp [hds] at hj
    | some ds =>
      simp [hds] at hj
      subst hj
      have hrec := stripFactList xs ds hvl hds
      simp [removeJsonMeta, removeJsonMetaEntries, removeJsonMetaList,
            strippedToDict, hrec]
  | .oinline n (.oblock n2 m2 cs2), j, hv, hj => by
    simp [validObj, inlineCheckChildren] at hv
  | .oinline n (.oinline n2 ch2), j, hv, hj => by
    simp [validObj, inlineCheckChildren] at hv
termination_by o _ _ _ => sizeOf o
decreasing_by
  all_goals simp_wf
  all_goals try simp
  all_goals omega

/-- `stripFact` over encoded child lists. -/
theorem stripFactList : ∀ os js, validObjList os = true → objListToDict os = some js →
    removeJsonMetaList js = strippedListToDict os
  | [], js, _, hj => by
    simp [objListToDict] at hj
    subst hj
    simp [removeJsonMetaList, strippedListToDict]
  | o :: rest, js, hv, hj => by
    simp [validObjList] at hv
    obtain ⟨h1, h2⟩ := hv
    simp [objListToDict] at hj
    cases hd : objToDict o with
    | none => simp [hd] at hj
    | some d =>
      simp [hd] at hj
      cases hds : objListToDict rest with
      | none => simp [hds] at hj
      | some ds =>
        simp [hds] at hj
        subst hj
        simp [removeJsonMetaList, strippedListToDict,
              stripFact o d h1 hd, stripFactList rest ds h2 hds]
termination_by os _ _ _ => sizeOf os
decreasing_by
  all_goals simp_wf
  all_goals try simp
  all_goals omega

end

mutual

/-- The metadata-free encoding never looks at metadata, so erasing
metadata first changes nothing. -/
theorem strippedErase : ∀ o : Obj, strippedToDict (eraseMeta o) = strippedToDict o
  | .ostr s => by simp [eraseMeta, strippedToDict]
  | .olist xs => by simp [eraseMeta, strippedToDict, strippedEraseList xs]
  | .oblock n m cs => by simp [eraseMeta, strippedToDict, strippedEraseList cs]
  | .oinline n (.ostr s) => by simp [eraseMeta, strippedToDict]
  | .oinline n (.olist xs) => by simp [eraseMeta, strippedToDict, strippedEraseList xs]
  | .oinline n (.oblock n2 m2 cs2) => by simp [eraseMeta, strippedToDict]
  | .oinline n (.oinline n2 ch2) => by
    have := strippedErase (.oinline n2 ch2)
    simp [eraseMeta, strippedToDict]
termination_by o => sizeOf o
decreasing_by
  all_goals simp_wf
  all_goals try simp
  all_goals omega

/-- `strippedErase` over a list. -/
theorem strippedEraseList : ∀ os : List Obj,
    strippedListToDict (eraseMetaList os) = strippedListToDict os
  | [] => by simp [eraseMetaList, strippedListToDict]
  | o :: rest => by
    simp [eraseMetaList, strippedListToDict, strippedErase o, strippedEraseList rest]
termination_by os => sizeOf os
decreasing_by
  all_goals simp_wf
  all_goals try simp
  all_goals omega

end

mutual

/-- On constructible nodes the metadata-free encoding determines the
metadata-erased node: `ae`'s comparison loses nothing but metadata. -/
theorem stripInj : ∀ o1 o2 : Obj, validObj o1 = true → validObj o2 = true →
    strippedToDict o1 = strippedToDict o2 → eraseMeta o1 = eraseMeta o2
  | .ostr s, _, hv, _, _ => by simp [validObj] at hv
  | .olist xs, _, hv, _, _ => by simp [validObj] at hv
  | _, .ostr s, _, hv, _ => by simp [validObj] at hv
  | _, .olist xs, _, hv, _ => by simp [validObj] at hv
  | .oblock n1 m1 cs1, .oblock n2 m2 cs2, hv1, hv2, h => by
    simp [validObj] at hv1 hv2
    simp [strippedToDict] at h
    obtain ⟨hn, hcs⟩ := h
    subst hn
    simp [eraseMeta]
    exact stripInjList cs1 cs2 hv1.2 hv2.2 hcs
  | .oblock n1 m1 cs1, .oinline n2 ch2, hv1, hv2, h => by
    simp [validObj] at hv1
    have hn2 := validObj_oinline_name hv2
    have hn : n1 = n2 := by
      cases ch2 with
      | ostr s => simp [strippedToDict] at h
      | olist xs => simp [strippedToDict] at h; exact h.1
      | oblock n3 m3 cs3 => simp [validObj, inlineCheckChildren] at hv2
      | oinline n3 ch3 => simp [validObj, inlineCheckChildren] at hv2
    subst hn
    exact absurd hn2 (names_disjoint n1 hv1.1.1)
  | .oinline n1 ch1, .oblock n2 m2 cs2, hv1, hv2, h => by
    simp [validObj] at hv2
    have hn1 := validObj_oinline_name hv1
    have hn : n1 = n2 := by
      cases ch1 with
      | ostr s => simp [strippedToDict] at h
      | olist xs => simp [strippedToDict] at h; exact h.1
      | oblock n3 m3 cs3 => simp [validObj, inlineCheckChildren] at hv1
      | oinline n3 ch3 => simp [validObj, inlineCheckChildren] at hv1
    subst hn
    exact absurd hn1 (names_disjoint n1 hv2.1.1)
  | .oinline n1 (.ostr s1), .oinline n2 (.ostr s2), hv1, hv2, h => by
    simp [strippedToDict] at h
    obtain ⟨hn, hs⟩ := h
    simp [eraseMeta, hn, hs]
  | .oinline n1 (.ostr s1), .oinline n2 (.olist xs2), hv1, hv2, h => by
    simp [strippedToDict] at h
  | .oinline n1 (.olist xs1), .oinline n2 (.ostr s2), hv1, hv2, h => by
    simp [strippedToDict] at h
  | .oinline n1 (.olist xs1), .oinline n2 (.olist xs2), hv1, hv2, h => by
    simp [validObj, inlineCheckChildren] at hv1 hv2
    simp [strippedToDict] at h
    obtain ⟨hn, hcs⟩ := h
    subst hn
    simp [eraseMeta]
    exact stripInjList xs1 xs2 hv1.2 hv2.2 hcs
  | .oinline n1 (.oblock n3 m3 cs3), _, hv1, _, _ => by
    simp [validObj, inlineCheckChildren] at hv1
  | .oinline n1 (.oinline n3 ch3), _, hv1, _, _ => by
    simp [validObj, inlineCheckChildren] at hv1
  | _, .oinline n2 (.oblock n3 m3 cs3), _, hv2, _ => by
    simp [validObj, inlineCheckChildren] at hv2
  | _, .oinline n2 (.oinline n3 ch3), _, hv2, _ => by
    simp [validObj, inlineCheckChildren] at hv2
termination_by o1 _ _ _ _ => sizeOf o1
decreasing_by
  all_goals simp_wf
  all_goals try simp
  all_goals omega

/-- `stripInj` over lists. -/
theorem stripInjList : ∀ os1 os2 : List Obj, validObjList os1 = true →
    validObjList os2 = true →
    strippedListToDict os1 = strippedListToDict os2 → eraseMetaList os1 = eraseMetaList os2
  | [], [], _, _, _ => rfl
  | [], o :: rest, _, _, h => by simp [strippedListToDict] at h
  | o :: rest, [], _, _, h => by simp [strippedListToDict] at h
  | o1 :: rest1, o2 :: rest2, hv1, hv2, h => by
    simp [validObjList] at hv1 hv2
    simp [strippedListToDict] at h
    simp [eraseMetaList]
    exact ⟨stripInj o1 o2 hv1.1 hv2.1 h.1, stripInjList rest1 rest2 hv1.2 hv2.2 h.2⟩
termination_by os1 _ _ _ _ => sizeOf os1
decreasing_by
  all_goals simp_wf
  all_goals try simp
  all_goals omega

end

/-- C6 counterexample: two documents that differ only in the value of
the ordinary metadata key `lang` — not in any internal bookkeeping key —
still compare equal under `ae`, refuting the claim that a difference in
any non-internal metadata key or value makes documents compare
unequal. -/
theorem c6_metadata_comparison_counterexample :
    (⟨[.oblock "CodeBlock" (.jobj [("lang", .jstr "python")]) []]⟩ : ASTObj) ≠
      ⟨[.oblock "CodeBlock" (.jobj [("lang", .jstr "haskell")]) []]⟩ ∧
    astToDict ⟨[.oblock "CodeBlock" (.jobj [("lang", .jstr "python")]) []]⟩
      = some (.jarr [.jobj [("unMeta", .jobj [])],
                     .jarr [.jobj [("t", .jstr "CodeBlock"),
                                   ("m", .jobj [("lang", .jstr "python")]),
                                   ("c", .jarr [])]]]) ∧
    astToDict ⟨[.oblock "CodeBlock" (.jobj [("lang", .jstr "haskell")]) []]⟩
      = some (.jarr [.jobj [("unMeta", .jobj [])],
                     .jarr [.jobj [("t", .jstr "CodeBlock"),
                                   ("m", .jobj [("lang", .jstr "haskell")]),
                                   ("c", .jarr [])]]]) ∧
    aeHolds
      (.jarr [.jobj [("unMeta", .jobj [])],
              .jarr [.jobj [("t", .jstr "CodeBlock"),
                            ("m", .jobj [("lang", .jstr "python")]),
                            ("c", .jarr [])]]])
      (.jarr [.jobj [("unMeta", .jobj [])],
              .jarr [.jobj [("t", .jstr "CodeBlock"),
                            ("m", .jobj [("lang", .jstr "haskell")]),
                            ("c", .jarr [])]]]) := by
  refine ⟨by simp, ?_, ?_, ?_⟩
  · simp [astToDict, objListToDict, objToDict, blockCheckChildren]
  · simp [astToDict, objListToDict, objToDict, blockCheckChildren]
  · simp [aeHolds, removeJsonMeta, removeJsonMetaList, removeJsonMetaEntries]

/-- C6 amended: `ae` excludes the entire per-node metadata mapping (the
`'m'` entry of every encoded node, at every level), not a single
bookkeeping key: for constructible documents, the `ae` comparison of
their encodings holds exactly when the documents agree after erasing all
block metadata — so documents differing only in metadata (any key, any
value) compare equal, and documents differing in kind or children
compare unequal. -/
theorem c6_meta_exclusion_amended :
    ∀ (a1 a2 : ASTObj) (j1 j2 : JsonV), validAST a1 = true → validAST a2 = true →
      astToDict a1 = some j1 → astToDict a2 = some j2 →
      (aeHolds j1 j2 ↔ eraseMetaList a1.blocks = eraseMetaList a2.blocks) := by
  intro a1 a2 j1 j2 hv1 hv2 hj1 hj2
  simp [validAST] at hv1 hv2
  cases hb1 : objListToDict a1.blocks with
  | none => simp [astToDict, hb1] at hj1
  | some bs1 =>
    cases hb2 : objListToDict a2.blocks with
    | none => simp [astToDict, hb2] at hj2
    | some bs2 =>
      simp [astToDict, hb1] at hj1
      simp [astToDict, hb2] at hj2
      subst hj1
      subst hj2
      have hf1 := stripFactList a1.blocks bs1 hv1.2 hb1
      have hf2 := stripFactList a2.blocks bs2 hv2.2 hb2
      constructor
      · intro hae
        simp [aeHolds, removeJsonMeta, removeJsonMetaList, removeJsonMetaEntries] at hae
        exact stripInjList a1.blocks a2.blocks hv1.2 hv2.2 (by rw [← hf1, ← hf2, hae])
      · intro herase
        have : strippedListToDict a1.blocks = strippedListToDict a2.blocks := by
          rw [← strippedEraseList a1.blocks, ← strippedEraseList a2.blocks, herase]
        simp [aeHolds, removeJsonMeta, removeJsonMetaList, removeJsonMetaEntries]
        rw [hf1, hf2, this]

/-- C6 amended witness: the counterexample pair agrees after metadata
erasure and indeed compares equal under `ae`. -/
theorem c6_meta_exclusion_amended_witness :
    aeHolds
        (.jarr [.jobj [("unMeta", .jobj [])],
                .jarr [.jobj [("t", .jstr "CodeBlock"),
                              ("m", .jobj [("lang", .jstr "python")]),
                              ("c", .jarr [])]]])
        (.jarr [.jobj [("unMeta", .jobj [])],
                .jarr [.jobj [("t", .jstr "CodeBlock"),
                              ("m", .jobj [("lang", .jstr "haskell")]),
                              ("c", .jarr [])]]]) ↔
      eraseMetaList [Obj.oblock "CodeBlock" (.jobj [("lang", .jstr "python")]) []] =
        eraseMetaList [Obj.oblock "CodeBlock" (.jobj [("lang", .jstr "haskell")]) []] :=
  c6_meta_exclusion_amended
    ⟨[.oblock "CodeBlock" (.jobj [("lang", .jstr "python")]) []]⟩
    ⟨[.oblock "CodeBlock" (.jobj [("lang", .jstr "haskell")]) []]⟩ _ _
    (by simp [validAST, validObjList, validObj, blockCheckChildren, Obj.isBlockI,
              PANDOC_BLOCK_NAMES])
    (by simp [validAST, validObjList, validObj, blockCheckChildren, Obj.isBlockI,
              PANDOC_BLOCK_NAMES])
    (by simp [astToDict, objListToDict, objToDict, blockCheckChildren])
    (by simp [astToDict, objListToDict, objToDict, blockCheckChildren])

/-- Relate two optional values pointwise. -/
def optRel {α β : Type} (R : α → β → Prop) : Option α → Option β → Prop
  | none, none => True
  | some x, some y => R x y
  | _, _ => False

mutual

/-- Python `==` on AST objects (`Bunch` dict comparison): raw strings by
value, lists pointwise, `Block`s by name, metadata (Python dict
equality) and children, `Inline`s by name and children. -/
def objEqP : Obj → Obj → Prop
  | .ostr s1, .ostr s2 => s1 = s2
  | .olist xs, .olist ys => objEqListP xs ys
  | .oblock n1 m1 c1, .oblock n2 m2 c2 => n1 = n2 ∧ jsonEqP m1 m2 ∧ objEqListP c1 c2
  | .oinline n1 ch1, .oinline n2 ch2 => n1 = n2 ∧ objEqP ch1 ch2
  | _, _ => False

/-- Python `==` on lists of AST objects, pointwise. -/
def objEqListP : List Obj → List Obj → Prop
  | [], [] => True
  | x :: xs, y :: ys => objEqP x y ∧ objEqListP xs ys
  | _, _ => False

end

/-- Python `==` on `AST` instances: the block lists compare pointwise. -/
def astEqP (a1 a2 : ASTObj) : Prop := objEqListP a1.blocks a2.blocks

/-- A dict lookup succeeds exactly for the keys present. -/
theorem lookupFirst_isSome_iff_memKeys (kvs : List (String × JsonV)) (k : String) :
    (lookupFirst kvs k).isSome ↔ k ∈ kvs.map Prod.fst := by
  induction kvs with
  | nil => simp [lookupFirst]
  | cons hd tl ih =>
    obtain ⟨hk, hv⟩ := hd
    by_cases hkey : hk = k
    · simp [lookupFirst, hkey]
    · simp [lookupFirst, hkey, ih, Ne.symm hkey]

/-- Two-entry dicts with the same distinct keys and Python-equal values
are Python-equal. -/
theorem jsonEqP_obj2 {a b : String} {x1 x2 y1 y2 : JsonV} (hab : a ≠ b)
    (hx : jsonEqP x1 x2) (hy : jsonEqP y1 y2) :
    jsonEqP (.jobj [(a, x1), (b, y1)]) (.jobj [(a, x2), (b, y2)]) := by
  simp only [jsonEqP]
  refine ⟨by simp [hab], by simp [hab], ?_, ?_⟩
  · intro k
    by_cases hka : a = k <;> by_cases hkb : b = k <;> simp [lookupFirst, hka, hkb]
  · intro k v1 v2 h1 h2
    by_cases hka : a = k
    · simp [lookupFirst, hka] at h1 h2
      rw [← h1, ← h2]
      exact hx
    · by_cases hkb : b = k
      · simp [lookupFirst, hka, hkb] at h1 h2
        rw [← h1, ← h2]
        exact hy
      · simp [lookupFirst, hka, hkb] at h1

/-- Three-entry dicts with the same distinct keys and Python-equal
values are Python-equal. -/
theorem jsonEqP_obj3 {a b c : String} {x1 x2 y1 y2 z1 z2 : JsonV}
    (hab : a ≠ b) (hac : a ≠ c) (hbc : b ≠ c)
    (hx : jsonEqP x1 x2) (hy : jsonEqP y1 y2) (hz : jsonEqP z1 z2) :
    jsonEqP (.jobj [(a, x1), (b, y1), (c, z1)]) (.jobj [(a, x2), (b, y2), (c, z2)]) := by
  simp only [jsonEqP]
  refine ⟨by simp [hab, hac, hbc], by simp [hab, hac, hbc], ?_, ?_⟩
  · intro k
    by_cases hka : a = k <;> by_cases hkb : b = k <;> by_cases hkc : c = k <;>
      simp [lookupFirst, hka, hkb, hkc]
  · intro k v1 v2 h1 h2
    by_cases hka : a = k
    · simp [lookupFirst, hka] at h1 h2
      rw [← h1, ← h2]
      exact hx
    · by_cases hkb : b = k
      · simp [lookupFirst, hka, hkb] at h1 h2
        rw [← h1, ← h2]
        exact hy
      · by_cases hkc : c = k
        · simp [lookupFirst, hka, hkb, hkc] at h1 h2
          rw [← h1, ← h2]
          exact hz
        · simp [lookupFirst, hka, hkb, hkc] at h1

/-- Python-equal objects are instances of the same class. -/
theorem objEqP_same_kind : ∀ o1 o2, objEqP o1 o2 →
    o1.isBlockI = o2.isBlockI ∧ o1.isInlineI = o2.isInlineI := by
  intro o1 o2 h
  cases o1 <;> cases o2 <;> simp [objEqP] at h <;> simp [Obj.isBlockI, Obj.isInlineI]

/-- Python-equal child lists pass `Block._check_children` together. -/
theorem objEqListP_blockCheck : ∀ xs ys, objEqListP xs ys →
    blockCheckChildren xs = blockCheckChildren ys := by
  intro xs
  induction xs with
  | nil => intro ys h; cases ys with
    | nil => rfl
    | cons y ys => simp [objEqListP] at h
  | cons x xs ih =>
    intro ys h
    cases ys with
    | nil => simp [objEqListP] at h
    | cons y ys =>
      simp only [objEqListP] at h
      obtain ⟨h1, h2⟩ := h
      obtain ⟨hb, hi⟩ := objEqP_same_kind x y h1
      simp [blockCheckChildren] at ih ⊢
      rw [hb, hi, ih ys h2]

/-- Python-equal child lists are all-`Inline` together. -/
theorem objEqListP_allInline : ∀ xs ys, objEqListP xs ys →
    xs.all Obj.isInlineI = ys.all Obj.isInlineI := by
  intro xs
  induction xs with
  | nil => intro ys h; cases ys with
    | nil => rfl
    | cons y ys => simp [objEqListP] at h
  | cons x xs ih =>
    intro ys h
    cases ys with
    | nil => simp [objEqListP] at h
    | cons y ys =>
      simp only [objEqListP] at h
      obtain ⟨h1, h2⟩ := h
      obtain ⟨hb, hi⟩ := objEqP_same_kind x y h1
      simp only [List.all_cons]
      rw [hi, ih ys h2]

/-- Python-equal inline children pass `Inline._check_children`
together. -/
theorem objEqP_inlineCheck : ∀ ch1 ch2, objEqP ch1 ch2 →
    inlineCheckChildren ch1 = inlineCheckChildren ch2 := by
  intro ch1 ch2 h
  cases ch1 <;> cases ch2 <;> simp [objEqP] at h <;>
    simp [inlineCheckChildren]
  exact objEqListP_allInline _ _ h

mutual

/-- `to_dict` maps Python-equal objects to Python-equal encodings (or
fails on both). -/
theorem toDictRespects : ∀ o1 o2 : Obj, objEqP o1 o2 →
    optRel jsonEqP (objToDict o1) (objToDict o2)
  | .ostr s1, o2, h => by
    cases o2 <;> simp [objEqP] at h
    simp [objToDict, optRel]
  | .olist xs, o2, h => by
    cases o2 <;> simp [objEqP] at h
    simp [objToDict, optRel]
  | .oblock n1 m1 c1, o2, h => by
    cases o2 with
    | ostr s2 => simp [objEqP] at h
    | olist ys => simp [objEqP] at h
    | oinline n2 ch2 => simp [objEqP] at h
    | oblock n2 m2 c2 =>
      simp only [objEqP] at h
      obtain ⟨hn, hm, hcs⟩ := h
      subst hn
      have hchk := objEqListP_blockCheck c1 c2 hcs
      by_cases hc : blockCheckChildren c1 = true
      · have hc2 : blockCheckChildren c2 = true := by rw [← hchk]; exact hc
        have hlist := toDictListRespects c1 c2 hcs
        cases hd1 : objListToDict c1 with
        | none =>
          cases hd2 : objListToDict c2 with
          | none => simp [objToDict, hc, hc2, hd1, hd2, optRel]
          | some ds2 => rw [hd1, hd2] at hlist; simp [optRel] at hlist
        | some ds1 =>
          cases hd2 : objListToDict c2 with
          | none => rw [hd1, hd2] at hlist; simp [optRel] at hlist
          | some ds2 =>
            rw [hd1, hd2] at hlist
            simp only [optRel] at hlist
            simp only [objToDict, hc, hc2, hd1, hd2, if_true, optRel]
            apply jsonEqP_obj3 (by decide) (by decide) (by decide)
            · simp [jsonEqP]
            · exact hm
            · simp only [jsonEqP]
              exact hlist
      · have hfalse : blockCheckChildren c1 = false := Bool.eq_false_iff.mpr hc
        have hfalse2 : blockCheckChildren c2 = false := by rw [← hchk]; exact hfalse
        simp [objToDict, hfalse, hfalse2, optRel]
  | .oinline n1 (.ostr s1), o2, h => by
    cases o2 with
    | ostr s2 => simp [objEqP] at h
    | olist ys => simp [objEqP] at h
    | oblock n2 m2 c2 => simp [objEqP] at h
    | oinline n2 ch2 =>
      simp only [objEqP] at h
      obtain ⟨hn, hch⟩ := h
      subst hn
      cases ch2 with
      | olist ys => simp [objEqP] at hch
      | oblock n3 m3 c3 => simp [objEqP] at hch
      | oinline n3 ch3 => simp [objEqP] at hch
      | ostr s2 =>
        simp only [objEqP] at hch
        subst hch
        simp only [objToDict, inlineCheckChildren, if_true, optRel]
        apply jsonEqP_obj2 (by decide) (by simp [jsonEqP]) (by simp [jsonEqP])
  | .oinline n1 (.olist xs), o2, h => by
    cases o2 with
    | ostr s2 => simp [objEqP] at h
    | olist ys => simp [objEqP] at h
    | oblock n2 m2 c2 => simp [objEqP] at h
    | oinline n2 ch2 =>
      simp only [objEqP] at h
      obtain ⟨hn, hch⟩ := h
      subst hn
      cases ch2 with
      | ostr s2 => simp [objEqP] at hch
      | oblock n3 m3 c3 => simp [objEqP] at hch
      | oinline n3 ch3 => simp [objEqP] at hch
      | olist ys =>
        simp only [objEqP] at hch
        have hichk : inlineCheckChildren (Obj.olist xs) = inlineCheckChildren (Obj.olist ys) := by
          simp only [inlineCheckChildren]
          exact objEqListP_allInline xs ys hch
        have hlist := toDictListRespects xs ys hch
        by_cases hc : inlineCheckChildren (Obj.olist xs) = true
        · have hc2 : inlineCheckChildren (Obj.olist ys) = true := by rw [← hichk]; exact hc
          cases hd1 : objListToDict xs with
          | none =>
            cases hd2 : objListToDict ys with
            | none => simp [objToDict, hc, hc2, hd1, hd2, optRel]
            | some ds2 => rw [hd1, hd2] at hlist; simp [optRel] at hlist
          | some ds1 =>
            cases hd2 : objListToDict ys with
            | none => rw [hd1, hd2] at hlist; simp [optRel] at hlist
            | some ds2 =>
              rw [hd1, hd2] at hlist
              simp only [optRel] at hlist
              simp only [objToDict, hc, hc2, hd1, hd2, if_true, optRel]
              apply jsonEqP_obj2 (by decide) (by simp [jsonEqP])
              simp only [jsonEqP]
              exact hlist
        · have hfalse : inlineCheckChildren (Obj.olist xs) = false := Bool.eq_false_iff.mpr hc
          have hfalse2 : inlineCheckChildren (Obj.olist ys) = false := by
            rw [← hichk]; exact hfalse
          simp [objToDict, hfalse, hfalse2, optRel]
  | .oinline n1 (.oblock n3 m3 c3), o2, h => by
    cases o2 with
    | ostr s2 => simp [objEqP] at h
    | olist ys => simp [objEqP] at h
    | oblock n2 m2 c2 => simp [objEqP] at h
    | oinline n2 ch2 =>
      simp only [objEqP] at h
      obtain ⟨hn, hch⟩ := h
      cases ch2 with
      | ostr s2 => simp [objEqP] at hch
      | olist ys => simp [objEqP] at hch
      | oinline n4 ch4 => simp [objEqP] at hch
      | oblock n4 m4 c4 => simp [objToDict, inlineCheckChildren, optRel]
  | .oinline n1 (.oinline n3 ch3), o2, h => by
    cases o2 with
    | ostr s2 => simp [objEqP] at h
    | olist ys => simp [objEqP] at h
    | oblock n2 m2 c2 => simp [objEqP] at h
    | oinline n2 ch2 =>
      simp only [objEqP] at h
      obtain ⟨hn, hch⟩ := h
      cases ch2 with
      | ostr s2 => simp [objEqP] at hch
      | olist ys => simp [objEqP] at hch
      | oblock n4 m4 c4 => simp [objEqP] at hch
      | oinline n4 ch4 => simp [objToDict, inlineCheckChildren, optRel]
termination_by o1 _ _ => sizeOf o1
decreasing_by
  all_goals simp_wf
  all_goals try simp
  all_goals omega

/-- `toDictRespects` over lists. -/
theorem toDictListRespects : ∀ xs ys : List Obj, objEqListP xs ys →
    optRel jsonEqListP (objListToDict xs) (objListToDict ys)
  | [], ys, h => by
    cases ys with
    | nil => simp [objListToDict, optRel, jsonEqListP]
    | cons y ys => simp [objEqListP] at h
  | x :: xs, ys, h => by
    cases ys with
    | nil => simp [objEqListP] at h
    | cons y ys =>
      simp only [objEqListP] at h
      obtain ⟨h1, h2⟩ := h
      have hx := toDictRespects x y h1
      have hxs := toDictListRespects xs ys h2
      cases hd1 : objToDict x with
      | none =>
        cases hd2 : objToDict y with
        | none => simp [objListToDict, hd1, hd2, optRel]
        | some d2 => rw [hd1, hd2] at hx; simp [optRel] at hx
      | some d1 =>
        cases hd2 : objToDict y with
        | none => rw [hd1, hd2] at hx; simp [optRel] at hx
        | some d2 =>
          rw [hd1, hd2] at hx
          simp only [optRel] at hx
          cases hds1 : objListToDict xs with
          | none =>
            cases hds2 : objListToDict ys with
            | none => simp [objListToDict, hd1, hd2, hds1, hds2, optRel]
            | some es2 => rw [hds1, hds2] at hxs; simp [optRel] at hxs
          | some es1 =>
            cases hds2 : objListToDict ys with
            | none => rw [hds1, hds2] at hxs; simp [optRel] at hxs
            | some es2 =>
              rw [hds1, hds2] at hxs
              simp only [optRel] at hxs
              simp only [objListToDict, hd1, hd2, hds1, hds2, optRel, jsonEqListP]
              exact ⟨hx, hxs⟩
termination_by xs _ _ => sizeOf xs
decreasing_by
  all_goals simp_wf
  all_goals try simp
  all_goals omega

end

/-- Unfolding `dumpObjEntries` when the key is present. -/
theorem dumpObjEntries_cons_some {k : String} {rest : List String}
    {kvs : List (String × JsonV)} {lvl : Nat} {w : JsonV}
    (h : lookupFirst kvs k = some w) :
    dumpObjEntries (k :: rest) kvs lvl =
      spacesN (2 * lvl) ++ "\"" ++ escapeString k ++ "\": " ++ dumpV w lvl ++
      (if rest.isEmpty then "" else ",\n") ++ dumpObjEntries rest kvs lvl := by
  simp only [dumpObjEntries]
  split
  next v hv => rw [h] at hv; cases hv; rfl
  next hv => rw [h] at hv; cases hv

/-- Unfolding `dumpObjEntries` when the key is absent. -/
theorem dumpObjEntries_cons_none {k : String} {rest : List String}
    {kvs : List (String × JsonV)} {lvl : Nat}
    (h : lookupFirst kvs k = none) :
    dumpObjEntries (k :: rest) kvs lvl =
      spacesN (2 * lvl) ++ "\"" ++ escapeString k ++ "\": " ++ "null" ++
      (if rest.isEmpty then "" else ",\n") ++ dumpObjEntries rest kvs lvl := by
  simp only [dumpObjEntries]
  split
  next v hv => rw [h] at hv; cases hv
  next hv => rfl

/-- Dicts with the same (duplicate-free) key set sort to the same key
sequence. -/
theorem sortedKeysOf_eq {kvs1 kvs2 : List (String × JsonV)}
    (h1 : (kvs1.map Prod.fst).Nodup) (h2 : (kvs2.map Prod.fst).Nodup)
    (hiff : ∀ k, (lookupFirst kvs1 k).isSome ↔ (lookupFirst kvs2 k).isSome) :
    sortedKeysOf kvs1 = sortedKeysOf kvs2 := by
  have hmem : ∀ k, k ∈ kvs1.map Prod.fst ↔ k ∈ kvs2.map Prod.fst := fun k => by
    rw [← lookupFirst_isSome_iff_memKeys, ← lookupFirst_isSome_iff_memKeys]
    exact hiff k
  have hperm : (kvs1.map Prod.fst).Perm (kvs2.map Prod.fst) :=
    (List.perm_ext_iff_of_nodup h1 h2).mpr hmem
  unfold sortedKeysOf
  rw [List.dedup_eq_self.mpr h1, List.dedup_eq_self.mpr h2]
  refine List.eq_of_perm_of_sorted ?_ (List.sorted_insertionSort _ _)
    (List.sorted_insertionSort _ _)
  exact ((List.perm_insertionSort _ _).trans hperm).trans
    (List.perm_insertionSort _ _).symm

mutual

/-- `json.dump(..., sort_keys=True, indent=2)` writes identical bytes
for Python-equal values: lists agree pointwise, and dicts agree because
the keys are emitted in sorted order with values fetched by key. -/
theorem dumpVRespects : ∀ (v1 v2 : JsonV) (lvl : Nat), jsonEqP v1 v2 →
    dumpV v1 lvl = dumpV v2 lvl
  | .jstr s1, v2, lvl, h => by
    cases v2 <;> simp [jsonEqP] at h
    simp [dumpV, h]
  | .jarr [], v2, lvl, h => by
    cases v2 with
    | jstr s2 => simp [jsonEqP] at h
    | jobj kvs2 => simp [jsonEqP] at h
    | jarr ys =>
      cases ys with
      | nil => rfl
      | cons y ys2 => simp [jsonEqP, jsonEqListP] at h
  | .jarr (x :: xs), v2, lvl, h => by
    cases v2 with
    | jstr s2 => simp [jsonEqP] at h
    | jobj kvs2 => simp [jsonEqP] at h
    | jarr ys =>
      cases ys with
      | nil => simp [jsonEqP, jsonEqListP] at h
      | cons y ys2 =>
        simp only [jsonEqP] at h
        have harr := dumpArrRespects (x :: xs) (y :: ys2) (lvl + 1) h
        simp [dumpV, harr]
  | .jobj [], v2, lvl, h => by
    cases v2 with
    | jstr s2 => simp [jsonEqP] at h
    | jarr ys => simp [jsonEqP] at h
    | jobj kvs2 =>
      cases kvs2 with
      | nil => rfl
      | cons e2 es2 =>
        simp only [jsonEqP] at h
        obtain ⟨-, -, hiff, -⟩ := h
        have := (hiff e2.1).mpr (by simp [lookupFirst])
        simp [lookupFirst] at this
  | .jobj ((k1, w1) :: es1), v2, lvl, h => by
    cases v2 with
    | jstr s2 => simp [jsonEqP] at h
    | jarr ys => simp [jsonEqP] at h
    | jobj kvs2 =>
      cases kvs2 with
      | nil =>
        simp only [jsonEqP] at h
        obtain ⟨-, -, hiff, -⟩ := h
        have := (hiff k1).mp (by simp [lookupFirst])
        simp [lookupFirst] at this
      | cons e2 es2 =>
        simp only [jsonEqP] at h
        obtain ⟨hnd1, hnd2, hiff, hvals⟩ := h
        have hkeys : sortedKeysOf ((k1, w1) :: es1) = sortedKeysOf (e2 :: es2) :=
          sortedKeysOf_eq hnd1 hnd2 hiff
        have hentries := dumpEntriesRespects (sortedKeysOf ((k1, w1) :: es1))
          ((k1, w1) :: es1) (e2 :: es2) (lvl + 1) hiff hvals
        obtain ⟨k2, w2⟩ := e2
        simp only [dumpV]
        rw [hentries, hkeys]
  termination_by v1 _ _ _ => (sizeOf v1, 0)
  decreasing_by
  all_goals simp_wf
  all_goals try simp
  all_goals omega

/-- `dumpVRespects` over array items. -/
theorem dumpArrRespects : ∀ (xs ys : List JsonV) (lvl : Nat), jsonEqListP xs ys →
    dumpArrItems xs lvl = dumpArrItems ys lvl
  | [], ys, lvl, h => by
    cases ys with
    | nil => rfl
    | cons y ys2 => simp [jsonEqListP] at h
  | x :: xs, ys, lvl, h => by
    cases ys with
    | nil => simp [jsonEqListP] at h
    | cons y ys2 =>
      simp only [jsonEqListP] at h
      obtain ⟨hxy, hrest⟩ := h
      have hv := dumpVRespects x y lvl hxy
      have hrec := dumpArrRespects xs ys2 lvl hrest
      have hemp : xs.isEmpty = ys2.isEmpty := by
        cases xs <;> cases ys2 <;> simp_all [jsonEqListP]
      simp [dumpArrItems, hv, hrec]
      rw [hemp]
  termination_by xs _ _ _ => (sizeOf xs, 0)
  decreasing_by
  all_goals simp_wf
  all_goals try simp
  all_goals omega

/-- `dumpVRespects` over dict entries emitted for a shared key list. -/
theorem dumpEntriesRespects : ∀ (ks : List String) (kvs1 kvs2 : List (String × JsonV))
    (lvl : Nat),
    (∀ k, (lookupFirst kvs1 k).isSome ↔ (lookupFirst kvs2 k).isSome) →
    (∀ k v1 v2, lookupFirst kvs1 k = some v1 → lookupFirst kvs2 k = some v2 →
      jsonEqP v1 v2) →
    dumpObjEntries ks kvs1 lvl = dumpObjEntries ks kvs2 lvl
  | [], _, _, _, _, _ => by simp [dumpObjEntries]
  | k :: rest, kvs1, kvs2, lvl, hiff, hvals => by
    have hrec := dumpEntriesRespects rest kvs1 kvs2 lvl hiff hvals
    cases l1 : lookupFirst kvs1 k with
    | none =>
      have l2 : lookupFirst kvs2 k = none := by
        have := hiff k
        rw [l1] at this
        simp at this
        exact Option.not_isSome_iff_eq_none.mp (by simp [this])
      rw [dumpObjEntries_cons_none l1, dumpObjEntries_cons_none l2, hrec]
    | some w1 =>
      have hsome : (lookupFirst kvs2 k).isSome := by
        rw [← hiff k, l1]
        rfl
      obtain ⟨w2, l2⟩ := Option.isSome_iff_exists.mp hsome
      have hw := dumpVRespects w1 w2 lvl (hvals k w1 w2 l1 l2)
      rw [dumpObjEntries_cons_some l1, dumpObjEntries_cons_some l2, hw, hrec]
  termination_by ks kvs1 _ _ _ _ => (sizeOf kvs1, ks.length + 1)
  decreasing_by
  all_goals simp_wf
  all_goals try (have hlt := lookupFirst_sizeOf l1)
  all_goals
    first
    | exact Prod.Lex.right _ (by omega)
    | exact Prod.Lex.left _ _ (by first | omega | (simp; omega))

end

/-- The empty dict is Python-equal to itself. -/
theorem jsonEqP_jobj_nil : jsonEqP (.jobj []) (.jobj []) := by
  simp [jsonEqP, lookupFirst]

/-- Strings are Python-equal to themselves. -/
theorem jsonEqP_jstr_self (s : String) : jsonEqP (.jstr s) (.jstr s) := by
  simp [jsonEqP]

/-- One-entry dicts with the same key and Python-equal values are
Python-equal. -/
theorem jsonEqP_obj1 {a : String} {x1 x2 : JsonV} (hx : jsonEqP x1 x2) :
    jsonEqP (.jobj [(a, x1)]) (.jobj [(a, x2)]) := by
  simp only [jsonEqP]
  refine ⟨by simp, by simp, ?_, ?_⟩
  · intro k
    by_cases hka : a = k <;> simp [lookupFirst, hka]
  · intro k v1 v2 h1 h2
    by_cases hka : a = k
    · simp [lookupFirst, hka] at h1 h2
      rw [← h1, ← h2]
      exact hx
    · simp [lookupFirst, hka] at h1

/-- Introduction for Python equality of arrays. -/
theorem jsonEqP_jarr_intro {xs ys : List JsonV} (h : jsonEqListP xs ys) :
    jsonEqP (.jarr xs) (.jarr ys) := by
  simp only [jsonEqP]
  exact h

/-- Introduction for Python equality of list cells. -/
theorem jsonEqListP_cons_intro {x y : JsonV} {xs ys : List JsonV}
    (hx : jsonEqP x y) (hxs : jsonEqListP xs ys) : jsonEqListP (x :: xs) (y :: ys) := by
  simp only [jsonEqListP]
  exact ⟨hx, hxs⟩

/-- Empty lists are Python-equal. -/
theorem jsonEqListP_nil : jsonEqListP [] [] := by simp [jsonEqListP]

/-- Introduction for Python equality of `Block` instances. -/
theorem objEqP_oblock_intro {n : String} {m1 m2 : JsonV} {c1 c2 : List Obj}
    (hm : jsonEqP m1 m2) (hc : objEqListP c1 c2) :
    objEqP (.oblock n m1 c1) (.oblock n m2 c2) := by
  simp only [objEqP]
  exact ⟨by trivial, hm, hc⟩

/-- Introduction for Python equality of object lists. -/
theorem objEqListP_cons_intro {x y : Obj} {xs ys : List Obj}
    (hx : objEqP x y) (hxs : objEqListP xs ys) : objEqListP (x :: xs) (y :: ys) := by
  simp only [objEqListP]
  exact ⟨hx, hxs⟩

/-- Empty object lists are Python-equal. -/
theorem objEqListP_nil : objEqListP [] [] := by simp [objEqListP]

/-- C7: the byte content `ASTPlugin.save` writes always ends in a
newline, and Python-equal documents (structural equality, including
metadata dicts compared without regard to insertion order) are written
as byte-identical content, thanks to `sort_keys=True`. -/
theorem c7_save_deterministic :
    (∀ a s, astSaveContents a = some s → ∃ p, s = p ++ "\n") ∧
    (∀ a1 a2, astEqP a1 a2 → astSaveContents a1 = astSaveContents a2) := by
  constructor
  · intro a s h
    cases hj : astToDict a with
    | none => simp [astSaveContents, hj] at h
    | some j =>
      simp [astSaveContents, hj] at h
      exact ⟨dumpV j 0, h.symm⟩
  · intro a1 a2 h
    have hlist := toDictListRespects a1.blocks a2.blocks h
    cases hb1 : objListToDict a1.blocks with
    | none =>
      cases hb2 : objListToDict a2.blocks with
      | none => simp [astSaveContents, astToDict, hb1, hb2]
      | some bs2 => rw [hb1, hb2] at hlist; simp [optRel] at hlist
    | some bs1 =>
      cases hb2 : objListToDict a2.blocks with
      | none => rw [hb1, hb2] at hlist; simp [optRel] at hlist
      | some bs2 =>
        rw [hb1, hb2] at hlist
        simp only [optRel] at hlist
        have houter : jsonEqP (.jarr [.jobj [("unMeta", .jobj [])], .jarr bs1])
            (.jarr [.jobj [("unMeta", .jobj [])], .jarr bs2]) :=
          jsonEqP_jarr_intro
            (jsonEqListP_cons_intro (jsonEqP_obj1 jsonEqP_jobj_nil)
              (jsonEqListP_cons_intro (jsonEqP_jarr_intro hlist) jsonEqListP_nil))
        have hdump := dumpVRespects _ _ 0 houter
        simp [astSaveContents, astToDict, hb1, hb2, hdump]

/-- Two-entry dicts with swapped entry order (Python dicts differing
only in insertion order) are Python-equal. -/
theorem jsonEqP_obj2_swap {a b : String} {x y : JsonV} (hab : a ≠ b)
    (hx : jsonEqP x x) (hy : jsonEqP y y) :
    jsonEqP (.jobj [(a, x), (b, y)]) (.jobj [(b, y), (a, x)]) := by
  simp only [jsonEqP]
  refine ⟨by simp [hab], by simp [Ne.symm hab], ?_, ?_⟩
  · intro k
    by_cases hka : a = k <;> by_cases hkb : b = k <;> simp [lookupFirst, hka, hkb]
  · intro k v1 v2 h1 h2
    by_cases hka : a = k
    · by_cases hkb : b = k
      · exact absurd (hka.trans hkb.symm) hab
      · simp [lookupFirst, hka, hkb] at h1 h2
        rw [← h1, ← h2]
        exact hx
    · by_cases hkb : b = k
      · simp [lookupFirst, hka, hkb] at h1 h2
        rw [← h1, ← h2]
        exact hy
      · simp [lookupFirst, hka, hkb] at h1

/-- C7 witness: a concrete document saves with a trailing newline, and
reordering its metadata dict does not change the saved bytes. -/
theorem c7_save_deterministic_witness :
    (∃ s, astSaveContents
        ⟨[.oblock "CodeBlock" (.jobj [("a", .jstr "x"), ("b", .jstr "y")]) []]⟩ = some s ∧
      ∃ p, s = p ++ "\n") ∧
    astSaveContents
        ⟨[.oblock "CodeBlock" (.jobj [("a", .jstr "x"), ("b", .jstr "y")]) []]⟩ =
      astSaveContents
        ⟨[.oblock "CodeBlock" (.jobj [("b", .jstr "y"), ("a", .jstr "x")]) []]⟩ := by
  constructor
  · have hsave : astSaveContents
        ⟨[.oblock "CodeBlock" (.jobj [("a", .jstr "x"), ("b", .jstr "y")]) []]⟩ =
        some (dumpV (.jarr [.jobj [("unMeta", .jobj [])],
          .jarr [.jobj [("t", .jstr "CodeBlock"),
                        ("m", .jobj [("a", .jstr "x"), ("b", .jstr "y")]),
                        ("c", .jarr [])]]]) 0 ++ "\n") := by
      simp [astSaveContents, astToDict, objListToDict, objToDict, blockCheckChildren]
    exact ⟨_, hsave, c7_save_deterministic.1 _ _ hsave⟩
  · apply c7_save_deterministic.2
    exact objEqListP_cons_intro
      (objEqP_oblock_intro
        (jsonEqP_obj2_swap (by decide) (jsonEqP_jstr_self "x") (jsonEqP_jstr_self "y"))
        objEqListP_nil)
      objEqListP_nil

end Podoc
